import Mathlib

/-!
Shallow embedding of `src/nautilus-shell-search-provider.c` (the GNOME Shell
search provider of nautilus): the search-session lifecycle, the hit-table
callbacks, the auxiliary bookmark/volume scan, and the result-metas cache.

External collaborators (glib string normalization, the scoring function of
`nautilus_search_hit_compute_scores`, the file-metadata source) are passed in
as parameters; everything that the C file itself computes is embedded as
executable Lean definitions.  Machine doubles (relevance scores) are modelled
as `Int`.
-/

namespace NautilusShell

/-! ## String matching: `strstr` and `prepare_string_for_compare` -/

/-- Check `startsWithL t s`: the character list `t` is a prefix of `s`
(the inner loop of C `strstr`). -/
def startsWithL : List Char → List Char → Bool
  | [], _ => true
  | _ :: _, [] => false
  | a :: as, b :: bs => a == b && startsWithL as bs

/-- Check `containsSubL t s`: `t` occurs as a contiguous substring of `s`;
`strstr (s, t) != NULL` in the C source. -/
def containsSubL (t : List Char) : List Char → Bool
  | [] => startsWithL t []
  | b :: bs => startsWithL t (b :: bs) || containsSubL t bs

/-- The specification-side notion of substring: `t` occurs contiguously in `s`. -/
def SubOf (t s : List Char) : Prop := ∃ l r, l ++ t ++ r = s

theorem startsWithL_iff (t s : List Char) :
    startsWithL t s = true ↔ ∃ r, t ++ r = s := by
  induction t generalizing s with
  | nil => simp [startsWithL]
  | cons a as ih =>
    cases s with
    | nil => simp [startsWithL]
    | cons b bs =>
      simp only [startsWithL, Bool.and_eq_true, beq_iff_eq, ih]
      constructor
      · rintro ⟨rfl, r, rfl⟩; exact ⟨r, rfl⟩
      · rintro ⟨r, h⟩
        injection h with h1 h2
        exact ⟨h1, r, h2⟩

theorem containsSubL_iff (t s : List Char) :
    containsSubL t s = true ↔ SubOf t s := by
  induction s with
  | nil =>
    simp only [containsSubL, startsWithL_iff, SubOf]
    constructor
    · rintro ⟨r, h⟩
      exact ⟨[], r, by simpa using h⟩
    · rintro ⟨l, r, h⟩
      rcases List.append_eq_nil.mp h with ⟨h1, h2⟩
      rcases List.append_eq_nil.mp h1 with ⟨_, h3⟩
      exact ⟨r, by simp [h3, h2]⟩
  | cons b bs ih =>
    simp only [containsSubL, Bool.or_eq_true, startsWithL_iff, ih, SubOf]
    constructor
    · rintro (⟨r, h⟩ | ⟨l, r, h⟩)
      · exact ⟨[], r, by simpa using h⟩
      · exact ⟨b :: l, r, by simp [h]⟩
    · rintro ⟨l, r, h⟩
      cases l with
      | nil => exact Or.inl ⟨r, by simpa using h⟩
      | cons x xs =>
        injection h with h1 h2
        exact Or.inr ⟨xs, r, h2⟩

/-- Model of the glib function `g_utf8_normalize (…, G_NORMALIZE_NFD)`: an arbitrary
normalization function supplied as a parameter, since Unicode decomposition is
performed by the external glib collaborator. -/
abbrev NFD := String → String

/-- The C function `prepare_string_for_compare`: NFD-normalize then lowercase
(`g_utf8_strdown`, modelled per character). -/
def prepare_string_for_compare (nfd : NFD) (s : String) : String :=
  String.mk ((nfd s).data.map Char.toLower)

/-- Split a character list on spaces, keeping empty fields, as
`g_strsplit (…, " ", -1)` does. -/
def splitOnSpaceAux (cur : List Char) : List Char → List (List Char)
  | [] => [cur.reverse]
  | c :: cs =>
    if c = ' ' then cur.reverse :: splitOnSpaceAux [] cs
    else splitOnSpaceAux (c :: cur) cs

/-- The query terms used by the auxiliary scan: the prepared query text split
on spaces (`g_strsplit (prepared, " ", -1)`). -/
def termsOf (nfd : NFD) (queryText : String) : List String :=
  (splitOnSpaceAux [] (prepare_string_for_compare nfd queryText).data).map
    fun l => String.mk l

/-- One candidate name matches iff every term is a substring of its prepared
form (the inner `for (j …) strstr` loop of `search_add_volumes_and_bookmarks`). -/
def matchesName (nfd : NFD) (terms : List String) (name : String) : Bool :=
  terms.all fun t => containsSubL t.data (prepare_string_for_compare nfd name).data

/-! ## Hits: `NautilusSearchHit` and the per-session hits hash table -/

/-- A search hit as stored in `search->hits`: keyed by its URI, carrying the
relevance computed by `nautilus_search_hit_compute_scores`. -/
structure SearchHit where
  uri : String
  relevance : Int
deriving DecidableEq, Repr

/-- The hits table `search->hits`: a `GHashTable` keyed by URI.  Modelled as a list of hits
whose URIs are pairwise distinct; iteration order is unspecified in glib, so
only key-set facts are relied upon. -/
abbrev HitTable := List SearchHit

/-- Semantics of `g_hash_table_replace`: any existing entry with the same key is dropped and
the new entry stored. -/
def hashReplace (t : HitTable) (h : SearchHit) : HitTable :=
  t.filter (fun x => x.uri != h.uri) ++ [h]

/-- Removal (`g_hash_table_remove`) by URI key. -/
def hashRemove (t : HitTable) (uri : String) : HitTable :=
  t.filter fun x => x.uri != uri

/-- Lookup (`g_hash_table_lookup`) on the hits table. -/
def lookupHit (t : HitTable) (uri : String) : Option SearchHit :=
  t.find? fun x => x.uri == uri

/-- The external scoring function: `nautilus_search_hit_compute_scores` assigns
a relevance to a hit given the query of the session. -/
abbrev Score := String → Int

/-- The callback `search_hits_added_cb`: each incoming hit is scored and stored with
`g_hash_table_replace`, keyed by its URI. -/
def search_hits_added_cb (score : Score) (t : HitTable) (uris : List String) : HitTable :=
  uris.foldl (fun acc u => hashReplace acc ⟨u, score u⟩) t

/-- The callback `search_hits_subtracted_cb`: the URI of each incoming hit is removed from the
table. -/
def search_hits_subtracted_cb (t : HitTable) (uris : List String) : HitTable :=
  uris.foldl (fun acc u => hashRemove acc u) t

/-- The ordering of `search_hit_compare_relevance`: a hit sorts before another
iff its relevance is at least as large (descending by relevance). -/
def hitGE (a b : SearchHit) : Prop := b.relevance ≤ a.relevance

instance : DecidableRel hitGE := fun a b =>
  inferInstanceAs (Decidable (b.relevance ≤ a.relevance))

instance : IsTotal SearchHit hitGE := ⟨fun a b => le_total b.relevance a.relevance⟩

instance : IsTrans SearchHit hitGE := ⟨fun _ _ _ h1 h2 => le_trans h2 h1⟩

/-- The hit list of `search_finished_cb` after `g_list_sort` with
`search_hit_compare_relevance`: the table values in descending relevance. -/
def sortedHits (t : HitTable) : List SearchHit :=
  t.insertionSort hitGE

/-- Reply payload of `search_finished_cb`: the URIs of the sorted hits, in order. -/
def search_finished_cb (t : HitTable) : List String :=
  (sortedHits t).map SearchHit.uri

/-! ## Bookmarks, volumes and mounts (inputs of the auxiliary scan) -/

/-- A `NautilusBookmark`: display name, URI, and icon token. -/
structure Bookmark where
  name : String
  uri : String
  icon : String
deriving DecidableEq, Repr

/-- The C function `nautilus_bookmark_list_item_with_uri`: the first bookmark with the given
URI, if any. -/
def item_with_uri (bookmarks : List Bookmark) (uri : String) : Option Bookmark :=
  bookmarks.find? fun b => b.uri == uri

/-- A `GMount`: display name, default-location URI, shadow flag, and whether
`g_mount_get_volume` is non-NULL. -/
structure Mount where
  name : String
  uri : String
  shadowed : Bool
  hasVolume : Bool
deriving DecidableEq, Repr

/-- A `GVolume`: its current mount (`g_volume_get_mount`, NULL when the volume
is not mounted) and whether `g_volume_get_drive` is non-NULL. -/
structure Volume where
  mount : Option Mount
  hasDrive : Bool
deriving DecidableEq, Repr

/-- A connected `GDrive`: its volumes. -/
structure Drive where
  volumes : List Volume
deriving DecidableEq, Repr

/-- The `GVolumeMonitor` snapshot: connected drives, all volumes, all mounts. -/
structure VolumeMonitor where
  drives : List Drive
  volumes : List Volume
  mounts : List Mount
deriving DecidableEq, Repr

/-- The `mounts_to_check` list of `search_add_volumes_and_bookmarks`, built by
`g_list_prepend` from three sources in order: (1) every volume of every
connected drive contributes `g_volume_get_mount (volume)` — possibly NULL,
with no shadow check; (2) every volume without a drive likewise; (3) every
mount that is not shadowed and has no volume. -/
def mounts_to_check (vm : VolumeMonitor) : List (Option Mount) :=
  let s1 := vm.drives.foldl
    (fun acc d => d.volumes.foldl (fun acc2 v => v.mount :: acc2) acc) []
  let s2 := vm.volumes.foldl
    (fun acc v => if v.hasDrive then acc else v.mount :: acc) s1
  vm.mounts.foldl
    (fun acc m => if m.shadowed then acc else if m.hasVolume then acc else some m :: acc) s2

/-- The mount-matching loop: `g_mount_get_name` is called on each entry, so a
NULL entry (`g_volume_get_mount` of an unmounted volume) is a null dereference,
modelled as `none`; otherwise the matching mounts are collected in list
order. -/
def matchMounts (nfd : NFD) (terms : List String) :
    List (Option Mount) → Option (List Mount)
  | [] => some []
  | none :: _ => none
  | some m :: rest =>
    match matchMounts nfd terms rest with
    | none => none
    | some ms => some (if matchesName nfd terms m.name then m :: ms else ms)

/-- The bookmark half of the scan: insert a scored hit, keyed by the bookmark
URI, for every bookmark whose name matches all terms. -/
def addBookmarkHits (nfd : NFD) (score : Score) (terms : List String)
    (bookmarks : List Bookmark) (hits : HitTable) : HitTable :=
  bookmarks.foldl
    (fun acc b =>
      if matchesName nfd terms b.name then hashReplace acc ⟨b.uri, score b.uri⟩ else acc)
    hits

/-- The mount half of the scan: insert a scored hit, keyed by the mount
default-location URI, for every matched mount. -/
def addMountHits (score : Score) (ms : List Mount) (hits : HitTable) : HitTable :=
  ms.foldl (fun acc m => hashReplace acc ⟨m.uri, score m.uri⟩) hits

/-- The C function `search_add_volumes_and_bookmarks`: split the prepared query text into
terms, insert a scored hit for every matching bookmark (keyed by its URI),
then for every matching mount (keyed by the URI of its default location).  `none`
models the null dereference on the missing mount of an unmounted volume. -/
def search_add_volumes_and_bookmarks (nfd : NFD) (score : Score)
    (bookmarks : List Bookmark) (vm : VolumeMonitor)
    (queryText : String) (hits : HitTable) : Option HitTable :=
  let terms := termsOf nfd queryText
  let h1 := addBookmarkHits nfd score terms bookmarks hits
  match matchMounts nfd terms (mounts_to_check vm) with
  | none => none
  | some ms => some (addMountHits score ms h1)

/-! ## Result metas: `metas_cache`, `GetResultMetas` -/

/-- The icon part of a metadata record: either a serialized `GIcon` string
(`"gicon"` key) or raw pixbuf data (`"icon-data"` key, `variant_from_pixbuf`). -/
inductive Icon where
  | gicon (s : String)
  | iconData (width height rowstride : Int) (hasAlpha : Bool)
      (bitsPerSample nChannels : Int) (bytes : List Nat)
deriving DecidableEq, Repr

/-- A raw pixbuf, as consumed by `variant_from_pixbuf`. -/
structure Pixbuf where
  width : Int
  height : Int
  rowstride : Int
  hasAlpha : Bool
  bitsPerSample : Int
  nChannels : Int
  bytes : List Nat
deriving DecidableEq, Repr

/-- The C function `variant_from_pixbuf`: serialize a pixbuf into the `"icon-data"` shape. -/
def variant_from_pixbuf (p : Pixbuf) : Icon :=
  .iconData p.width p.height p.rowstride p.hasAlpha p.bitsPerSample p.nChannels p.bytes

/-- One metadata record (`a{sv}` with keys `"id"`, `"name"`, and the icon). -/
structure Meta where
  id : String
  name : String
  icon : Icon
deriving DecidableEq, Repr

/-- What the external file-metadata source reports for one URI once its
attributes are ready: display name, optional thumbnail path, optional `GIcon`
string, and the fallback pixbuf. -/
structure FileInfo where
  displayName : String
  thumbnailPath : Option String
  gicon : Option String
  pixbuf : Pixbuf
deriving DecidableEq, Repr

/-- The external metadata collaborator, resolving a URI to its file info. -/
abbrev FileSource := String → FileInfo

/-- The C function `get_display_name`: a bookmark with the URI of the file overrides the display
name. -/
def get_display_name (bookmarks : List Bookmark) (uri : String) (fi : FileInfo) : String :=
  match item_with_uri bookmarks uri with
  | some b => b.name
  | none => fi.displayName

/-- The C function `get_gicon`: a bookmark with the URI of the file overrides the icon. -/
def get_gicon (bookmarks : List Bookmark) (uri : String) (fi : FileInfo) : Option String :=
  match item_with_uri bookmarks uri with
  | some b => some b.icon
  | none => fi.gicon

/-- The metadata record built for one file in `result_list_attributes_ready_cb`:
thumbnail file icon if a thumbnail path exists, else the (bookmark-overridden)
`GIcon` if non-NULL, else the pixbuf fallback. -/
def buildMeta (bookmarks : List Bookmark) (uri : String) (fi : FileInfo) : Meta :=
  let icon :=
    match fi.thumbnailPath with
    | some p => Icon.gicon p
    | none =>
      match get_gicon bookmarks uri fi with
      | some g => Icon.gicon g
      | none => variant_from_pixbuf fi.pixbuf
  { id := uri, name := get_display_name bookmarks uri fi, icon := icon }

/-- The cache `metas_cache`: a `GHashTable` from URI to metadata record, modelled as an
association list with unique keys. -/
abbrev MetasCache := List (String × Meta)

/-- Lookup on the metas cache. -/
def cacheLookup (c : MetasCache) (uri : String) : Option Meta :=
  (c.find? fun p => p.1 == uri).map Prod.snd

/-- Semantics of `g_hash_table_insert`: replace any existing entry for the key. -/
def cacheInsert (c : MetasCache) (uri : String) (m : Meta) : MetasCache :=
  c.filter (fun p => p.1 != uri) ++ [(uri, m)]

/-- The C function `result_metas_return_from_cache`: one cache lookup per requested URI, in
request order (a NULL lookup would be passed to the variant builder; it is kept
as `none` here). -/
def result_metas_return_from_cache (c : MetasCache) (uris : List String) :
    List (Option Meta) :=
  uris.map fun u => cacheLookup c u

/-- Cache update of `result_list_attributes_ready_cb`: build and insert a record
for every file in the resolved list. -/
def result_list_attributes_ready_cb (bookmarks : List Bookmark) (fs : FileSource)
    (c : MetasCache) (uris : List String) : MetasCache :=
  uris.foldl (fun acc u => cacheInsert acc u (buildMeta bookmarks u (fs u))) c

/-- The observable outcome of one `GetResultMetas` call: the cache afterwards,
the reply records, and whether the external metadata source was invoked
(`nautilus_file_list_call_when_ready` on a non-empty miss list). -/
structure MetasResult where
  cache : MetasCache
  reply : List (Option Meta)
  sourceInvoked : Bool
deriving DecidableEq, Repr

/-- The handler `handle_get_result_metas`: URIs missing from the cache are resolved via the
external source and inserted, then the reply is assembled from the cache, one
lookup per requested URI in order; with no misses the reply is synchronous and
the source is not invoked. -/
def handle_get_result_metas (bookmarks : List Bookmark) (fs : FileSource)
    (c : MetasCache) (uris : List String) : MetasResult :=
  let missing := uris.filter fun u => (cacheLookup c u).isNone
  if missing.isEmpty then
    { cache := c, reply := result_metas_return_from_cache c uris, sourceInvoked := false }
  else
    let c2 := result_list_attributes_ready_cb bookmarks fs c missing
    { cache := c2, reply := result_metas_return_from_cache c2 uris, sourceInvoked := true }

/-! ## The session lifecycle: `PendingSearch`, cancellation, `execute_search` -/

/-- A `PendingSearch`: the query text of the session, its hits table, and the
pending D-Bus invocation it must answer (invocations are identified by a
number). -/
structure PendingSearch where
  queryText : String
  hits : HitTable
  invocation : Nat
deriving DecidableEq, Repr

/-- The provider-visible state of the application object: the current search
slot and the metas cache, plus the bookmark list and volume monitor snapshot. -/
structure App where
  current_search : Option PendingSearch
  metas_cache : MetasCache
  bookmarks : List Bookmark
  volumes : VolumeMonitor
deriving DecidableEq, Repr

/-- Externally observable actions, in order of occurrence: stopping a
engine of a session (`nautilus_search_provider_stop`), answering the
invocation (`g_dbus_method_invocation_return_value` with an `(as)` list), and
pending invocation of a session, and starting an engine (`nautilus_search_provider_start`). -/
inductive Event where
  | engineStop (inv : Nat)
  | reply (inv : Nat) (ids : List String)
  | engineStart (inv : Nat)
deriving DecidableEq, Repr

/-- The C function `cancel_current_search`: a no-op without a live session; otherwise stop the
engine, then answer the pending invocation with the empty list and clear the
slot (`finish_current_search` with a NULL `(as)`). -/
def cancel_current_search (app : App) : App × List Event :=
  match app.current_search with
  | none => (app, [])
  | some s =>
    ({ app with current_search := none },
     [Event.engineStop s.invocation, Event.reply s.invocation []])

/-- The part of `execute_search` after the single-character check: build the
query text by joining the terms with spaces (`g_strjoinv`), create the pending
search with an empty hits table, run the synchronous bookmark/volume scan into
it, and start the engine.  The state is `none` exactly when the auxiliary scan
dereferences a NULL mount. -/
def execute_search_go (nfd : NFD) (score : Score) (app1 : App)
    (ev1 : List Event) (inv : Nat) (terms : List String) :
    List Event × Option App :=
  let queryText := String.intercalate " " terms
  match search_add_volumes_and_bookmarks nfd score app1.bookmarks app1.volumes queryText [] with
  | none => (ev1, none)
  | some hits =>
    let ps : PendingSearch := { queryText := queryText, hits := hits, invocation := inv }
    (ev1 ++ [Event.engineStart inv], some { app1 with current_search := some ps })

/-- The C function `execute_search`: cancel any running session, short-circuit a
single-character single-term query with a synchronous empty reply, otherwise
continue with `execute_search_go`. -/
def execute_search (nfd : NFD) (score : Score) (app : App)
    (inv : Nat) (terms : List String) : List Event × Option App :=
  let c := cancel_current_search app
  let app1 := c.1
  let ev1 := c.2
  match terms with
  | [t] =>
    if t.length = 1 then
      (ev1 ++ [Event.reply inv []], some app1)
    else
      execute_search_go nfd score app1 ev1 inv [t]
  | _ => execute_search_go nfd score app1 ev1 inv terms

/-- The handler `handle_get_initial_result_set`: delegates to `execute_search`. -/
def handle_get_initial_result_set (nfd : NFD) (score : Score) (app : App)
    (inv : Nat) (terms : List String) : List Event × Option App :=
  execute_search nfd score app inv terms

/-- The handler `handle_get_subsearch_result_set`: the previous results are accepted but
unused; delegates to `execute_search` on the new terms alone. -/
def handle_get_subsearch_result_set (nfd : NFD) (score : Score) (app : App)
    (inv : Nat) (previous_results : List String) (terms : List String) :
    List Event × Option App :=
  execute_search nfd score app inv terms

/-- The callback `search_error_cb`: the invocation of the live session is answered with the empty
list and the session is finalized; the accumulated hits are discarded.  `none`
models the callback firing with no live session (a NULL dereference in C). -/
def search_error_cb (app : App) : Option (App × List Event) :=
  match app.current_search with
  | none => none
  | some s =>
    some ({ app with current_search := none }, [Event.reply s.invocation []])

/-- The callback `search_finished_cb` at the application level: the hits of the live session are
sorted by descending relevance and their URIs answered on its invocation. -/
def search_finished_app (app : App) : Option (App × List Event) :=
  match app.current_search with
  | none => none
  | some s =>
    some ({ app with current_search := none },
          [Event.reply s.invocation (search_finished_cb s.hits)])

/-! ## Engine notifications as a sequence -/

/-- One engine signal mutating the hits table. -/
inductive Notification where
  | added (uris : List String)
  | subtracted (uris : List String)
deriving DecidableEq, Repr

/-- Apply one notification to the hits table. -/
def applyNotification (score : Score) (t : HitTable) : Notification → HitTable
  | .added us => search_hits_added_cb score t us
  | .subtracted us => search_hits_subtracted_cb t us

/-- Apply a sequence of notifications in order. -/
def processNotifications (score : Score) (t : HitTable)
    (seq : List Notification) : HitTable :=
  seq.foldl (applyNotification score) t

/-- Key uniqueness of a hits table: URIs are pairwise distinct (the hash-table
key invariant). -/
def UniqueKeys (t : HitTable) : Prop := (t.map SearchHit.uri).Nodup

/-! ## Hash-table lemmas -/

theorem mem_keys_hashReplace (t : HitTable) (h : SearchHit) (u : String) :
    u ∈ (hashReplace t h).map SearchHit.uri ↔ u = h.uri ∨ u ∈ t.map SearchHit.uri := by
  simp only [hashReplace, List.map_append, List.mem_append, List.map_cons, List.map_nil,
    List.mem_singleton, List.mem_map, List.mem_filter, bne_iff_ne, ne_eq]
  constructor
  · rintro (⟨x, ⟨hx, _⟩, rfl⟩ | rfl)
    · exact Or.inr ⟨x, hx, rfl⟩
    · exact Or.inl rfl
  · rintro (rfl | ⟨x, hx, rfl⟩)
    · exact Or.inr rfl
    · by_cases he : x.uri = h.uri
      · exact Or.inr he
      · exact Or.inl ⟨x, ⟨hx, he⟩, rfl⟩

theorem mem_keys_hashRemove (t : HitTable) (v u : String) :
    u ∈ (hashRemove t v).map SearchHit.uri ↔ u ∈ t.map SearchHit.uri ∧ u ≠ v := by
  simp only [hashRemove, List.mem_map, List.mem_filter, bne_iff_ne, ne_eq]
  constructor
  · rintro ⟨x, ⟨hx, hne⟩, rfl⟩
    exact ⟨⟨x, hx, rfl⟩, hne⟩
  · rintro ⟨⟨x, hx, rfl⟩, hne⟩
    exact ⟨x, ⟨hx, hne⟩, rfl⟩

theorem uniqueKeys_hashReplace (t : HitTable) (h : SearchHit)
    (hu : UniqueKeys t) : UniqueKeys (hashReplace t h) := by
  unfold UniqueKeys hashReplace
  rw [List.map_append, List.nodup_append]
  refine ⟨?_, List.nodup_singleton _, ?_⟩
  · exact ((List.filter_sublist t).map SearchHit.uri).nodup hu
  · intro a ha hb
    simp only [List.map_cons, List.map_nil, List.mem_singleton] at hb
    subst hb
    simp only [List.mem_map, List.mem_filter, bne_iff_ne, ne_eq] at ha
    rcases ha with ⟨x, ⟨_, hne⟩, hx⟩
    exact hne hx

theorem uniqueKeys_hashRemove (t : HitTable) (v : String)
    (hu : UniqueKeys t) : UniqueKeys (hashRemove t v) :=
  ((List.filter_sublist t).map SearchHit.uri).nodup hu

theorem lookupHit_hashReplace_self (t : HitTable) (h : SearchHit) :
    lookupHit (hashReplace t h) h.uri = some h := by
  unfold lookupHit hashReplace
  rw [List.find?_append]
  have hnone : (t.filter fun x => x.uri != h.uri).find? (fun x => x.uri == h.uri) = none := by
    rw [List.find?_eq_none]
    intro x hx
    simp only [List.mem_filter, bne_iff_ne, ne_eq] at hx
    simpa using hx.2
  simp [hnone]

theorem uniqueKeys_added_cb (score : Score) (t : HitTable) (uris : List String)
    (hu : UniqueKeys t) : UniqueKeys (search_hits_added_cb score t uris) := by
  induction uris generalizing t with
  | nil => exact hu
  | cons u us ih => exact ih _ (uniqueKeys_hashReplace _ _ hu)

theorem uniqueKeys_subtracted_cb (t : HitTable) (uris : List String)
    (hu : UniqueKeys t) : UniqueKeys (search_hits_subtracted_cb t uris) := by
  induction uris generalizing t with
  | nil => exact hu
  | cons u us ih => exact ih _ (uniqueKeys_hashRemove _ _ hu)

theorem uniqueKeys_processNotifications (score : Score) (t : HitTable)
    (seq : List Notification) (hu : UniqueKeys t) :
    UniqueKeys (processNotifications score t seq) := by
  induction seq generalizing t with
  | nil => exact hu
  | cons n ns ih =>
    refine ih _ ?_
    cases n with
    | added us => exact uniqueKeys_added_cb _ _ _ hu
    | subtracted us => exact uniqueKeys_subtracted_cb _ _ hu

/-! ## Sorting lemmas -/

theorem search_finished_cb_perm (t : HitTable) :
    (search_finished_cb t).Perm (t.map SearchHit.uri) :=
  (List.perm_insertionSort hitGE t).map SearchHit.uri

theorem sortedHits_sorted (t : HitTable) :
    List.Sorted hitGE (sortedHits t) :=
  List.sorted_insertionSort hitGE t

theorem mem_search_finished_cb (t : HitTable) (u : String) :
    u ∈ search_finished_cb t ↔ u ∈ t.map SearchHit.uri :=
  (search_finished_cb_perm t).mem_iff

/-! ## Auxiliary-scan lemmas -/

theorem addBookmarkHits_cons (nfd : NFD) (score : Score) (terms : List String)
    (b : Bookmark) (bs : List Bookmark) (hits : HitTable) :
    addBookmarkHits nfd score terms (b :: bs) hits =
      addBookmarkHits nfd score terms bs
        (if matchesName nfd terms b.name then hashReplace hits ⟨b.uri, score b.uri⟩ else hits) :=
  rfl

theorem addMountHits_cons (score : Score) (m : Mount) (ms : List Mount) (hits : HitTable) :
    addMountHits score (m :: ms) hits =
      addMountHits score ms (hashReplace hits ⟨m.uri, score m.uri⟩) :=
  rfl

theorem mem_keys_addBookmarkHits (nfd : NFD) (score : Score) (terms : List String)
    (bookmarks : List Bookmark) (hits : HitTable) (u : String)
    (h : u ∈ hits.map SearchHit.uri) :
    u ∈ (addBookmarkHits nfd score terms bookmarks hits).map SearchHit.uri := by
  induction bookmarks generalizing hits with
  | nil => exact h
  | cons b bs ih =>
    rw [addBookmarkHits_cons]
    apply ih
    by_cases hm : matchesName nfd terms b.name = true
    · simp only [hm, if_true, mem_keys_hashReplace]
      exact Or.inr h
    · simp only [Bool.not_eq_true] at hm
      simp only [hm, Bool.false_eq_true, if_false]
      exact h

theorem mem_keys_addMountHits (score : Score) (ms : List Mount) (hits : HitTable)
    (u : String) (h : u ∈ hits.map SearchHit.uri) :
    u ∈ (addMountHits score ms hits).map SearchHit.uri := by
  induction ms generalizing hits with
  | nil => exact h
  | cons m ms2 ih =>
    rw [addMountHits_cons]
    exact ih _ ((mem_keys_hashReplace _ _ _).mpr (Or.inr h))

theorem matched_bookmark_mem_keys (nfd : NFD) (score : Score) (terms : List String)
    (bookmarks : List Bookmark) (hits : HitTable) (b : Bookmark)
    (hb : b ∈ bookmarks) (hm : matchesName nfd terms b.name = true) :
    b.uri ∈ (addBookmarkHits nfd score terms bookmarks hits).map SearchHit.uri := by
  induction bookmarks generalizing hits with
  | nil => cases hb
  | cons x xs ih =>
    rw [addBookmarkHits_cons]
    rcases List.mem_cons.mp hb with rfl | hb2
    · rw [if_pos hm]
      exact mem_keys_addBookmarkHits nfd score terms xs _ b.uri
        ((mem_keys_hashReplace _ _ _).mpr (Or.inl rfl))
    · exact ih _ hb2

theorem matchMounts_none_of_mem (nfd : NFD) (terms : List String)
    (l : List (Option Mount)) (h : none ∈ l) :
    matchMounts nfd terms l = none := by
  induction l with
  | nil => cases h
  | cons x xs ih =>
    cases x with
    | none => rfl
    | some m =>
      have h2 : none ∈ xs := by
        rcases List.mem_cons.mp h with h3 | h3
        · cases h3
        · exact h3
      simp only [matchMounts, ih h2]

theorem matchMounts_isSome (nfd : NFD) (terms : List String)
    (l : List (Option Mount)) (h : ∀ x ∈ l, x ≠ none) :
    ∃ ms, matchMounts nfd terms l = some ms := by
  induction l with
  | nil => exact ⟨[], rfl⟩
  | cons x xs ih =>
    cases x with
    | none => exact absurd rfl (h none (List.mem_cons_self _ _))
    | some m =>
      rcases ih (fun y hy => h y (List.mem_cons_of_mem _ hy)) with ⟨ms, hms⟩
      exact ⟨if matchesName nfd terms m.name then m :: ms else ms, by
        simp only [matchMounts, hms]⟩

theorem mem_matchMounts (nfd : NFD) (terms : List String)
    (l : List (Option Mount)) (ms : List Mount) (m : Mount)
    (h : matchMounts nfd terms l = some ms) :
    m ∈ ms ↔ some m ∈ l ∧ matchesName nfd terms m.name = true := by
  induction l generalizing ms with
  | nil =>
    simp only [matchMounts, Option.some.injEq] at h
    subst h
    simp
  | cons x xs ih =>
    cases x with
    | none => simp [matchMounts] at h
    | some m2 =>
      simp only [matchMounts] at h
      cases hrec : matchMounts nfd terms xs with
      | none => rw [hrec] at h; cases h
      | some ms2 =>
        rw [hrec] at h
        simp only [Option.some.injEq] at h
        subst h
        by_cases hm2 : matchesName nfd terms m2.name = true
        · simp only [hm2, if_true, List.mem_cons, ih ms2 hrec]
          constructor
          · rintro (rfl | ⟨hmem, hmn⟩)
            · exact ⟨Or.inl rfl, hm2⟩
            · exact ⟨Or.inr hmem, hmn⟩
          · rintro ⟨hmem, hmn⟩
            rcases hmem with heq | hmem2
            · exact Or.inl (Option.some.inj heq)
            · exact Or.inr ⟨hmem2, hmn⟩
        · simp only [Bool.not_eq_true] at hm2
          simp only [hm2, Bool.false_eq_true, if_false, ih ms2 hrec]
          constructor
          · rintro ⟨hmem, hmn⟩
            exact ⟨List.mem_cons_of_mem _ hmem, hmn⟩
          · rintro ⟨hmem, hmn⟩
            rcases List.mem_cons.mp hmem with heq | hmem2
            · cases Option.some.inj heq
              simp [hm2] at hmn
            · exact ⟨hmem2, hmn⟩

/-! ## Characterizing `mounts_to_check` -/

theorem mem_volume_fold (vols : List Volume) (acc : List (Option Mount)) (x : Option Mount) :
    x ∈ vols.foldl (fun a v => v.mount :: a) acc ↔
      x ∈ acc ∨ ∃ v ∈ vols, x = v.mount := by
  induction vols generalizing acc with
  | nil => simp
  | cons v vs ih =>
    simp only [List.foldl_cons, ih, List.mem_cons, List.mem_cons]
    constructor
    · rintro ((rfl | hacc) | ⟨w, hw, rfl⟩)
      · exact Or.inr ⟨v, Or.inl rfl, rfl⟩
      · exact Or.inl hacc
      · exact Or.inr ⟨w, Or.inr hw, rfl⟩
    · rintro (hacc | ⟨w, (rfl | hw), rfl⟩)
      · exact Or.inl (Or.inr hacc)
      · exact Or.inl (Or.inl rfl)
      · exact Or.inr ⟨w, hw, rfl⟩

theorem mem_drive_fold (drives : List Drive) (acc : List (Option Mount)) (x : Option Mount) :
    x ∈ drives.foldl (fun a d => d.volumes.foldl (fun a2 v => v.mount :: a2) a) acc ↔
      x ∈ acc ∨ ∃ d ∈ drives, ∃ v ∈ d.volumes, x = v.mount := by
  induction drives generalizing acc with
  | nil => simp
  | cons d ds ih =>
    simp only [List.foldl_cons, ih, mem_volume_fold, List.mem_cons]
    constructor
    · rintro ((hacc | ⟨v, hv, rfl⟩) | ⟨e, he, v, hv, rfl⟩)
      · exact Or.inl hacc
      · exact Or.inr ⟨d, Or.inl rfl, v, hv, rfl⟩
      · exact Or.inr ⟨e, Or.inr he, v, hv, rfl⟩
    · rintro (hacc | ⟨e, (rfl | he), v, hv, rfl⟩)
      · exact Or.inl (Or.inl hacc)
      · exact Or.inl (Or.inr ⟨v, hv, rfl⟩)
      · exact Or.inr ⟨e, he, v, hv, rfl⟩

theorem mem_driveless_fold (vols : List Volume) (acc : List (Option Mount)) (x : Option Mount) :
    x ∈ vols.foldl (fun a v => if v.hasDrive then a else v.mount :: a) acc ↔
      x ∈ acc ∨ ∃ v ∈ vols, v.hasDrive = false ∧ x = v.mount := by
  induction vols generalizing acc with
  | nil => simp
  | cons v vs ih =>
    simp only [List.foldl_cons, ih]
    by_cases hd : v.hasDrive
    · simp only [hd, if_true]
      constructor
      · rintro (hacc | ⟨w, hw, hwd, rfl⟩)
        · exact Or.inl hacc
        · exact Or.inr ⟨w, List.mem_cons_of_mem _ hw, hwd, rfl⟩
      · rintro (hacc | ⟨w, hw, hwd, rfl⟩)
        · exact Or.inl hacc
        · rcases List.mem_cons.mp hw with rfl | hw2
          · rw [hd] at hwd; cases hwd
          · exact Or.inr ⟨w, hw2, hwd, rfl⟩
    · simp only [Bool.not_eq_true] at hd
      simp only [hd, Bool.false_eq_true, if_false, List.mem_cons]
      constructor
      · rintro ((rfl | hacc) | ⟨w, hw, hwd, rfl⟩)
        · exact Or.inr ⟨v, Or.inl rfl, hd, rfl⟩
        · exact Or.inl hacc
        · exact Or.inr ⟨w, Or.inr hw, hwd, rfl⟩
      · rintro (hacc | ⟨w, hw, hwd, rfl⟩)
        · exact Or.inl (Or.inr hacc)
        · rcases hw with rfl | hw2
          · exact Or.inl (Or.inl rfl)
          · exact Or.inr ⟨w, hw2, hwd, rfl⟩

theorem mem_mount_fold (mounts : List Mount) (acc : List (Option Mount)) (x : Option Mount) :
    x ∈ mounts.foldl
        (fun a m => if m.shadowed then a else if m.hasVolume then a else some m :: a) acc ↔
      x ∈ acc ∨ ∃ m ∈ mounts, m.shadowed = false ∧ m.hasVolume = false ∧ x = some m := by
  induction mounts generalizing acc with
  | nil => simp
  | cons m ms ih =>
    simp only [List.foldl_cons, ih]
    by_cases hs : m.shadowed
    · simp only [hs, if_true]
      constructor
      · rintro (hacc | ⟨w, hw, hws, hwv, rfl⟩)
        · exact Or.inl hacc
        · exact Or.inr ⟨w, List.mem_cons_of_mem _ hw, hws, hwv, rfl⟩
      · rintro (hacc | ⟨w, hw, hws, hwv, rfl⟩)
        · exact Or.inl hacc
        · rcases List.mem_cons.mp hw with rfl | hw2
          · rw [hs] at hws; cases hws
          · exact Or.inr ⟨w, hw2, hws, hwv, rfl⟩
    · simp only [Bool.not_eq_true] at hs
      simp only [hs, Bool.false_eq_true, if_false]
      by_cases hv : m.hasVolume
      · simp only [hv, if_true]
        constructor
        · rintro (hacc | ⟨w, hw, hws, hwv, rfl⟩)
          · exact Or.inl hacc
          · exact Or.inr ⟨w, List.mem_cons_of_mem _ hw, hws, hwv, rfl⟩
        · rintro (hacc | ⟨w, hw, hws, hwv, rfl⟩)
          · exact Or.inl hacc
          · rcases List.mem_cons.mp hw with rfl | hw2
            · rw [hv] at hwv; cases hwv
            · exact Or.inr ⟨w, hw2, hws, hwv, rfl⟩
      · simp only [Bool.not_eq_true] at hv
        simp only [hv, Bool.false_eq_true, if_false, List.mem_cons]
        constructor
        · rintro ((rfl | hacc) | ⟨w, hw, hws, hwv, rfl⟩)
          · exact Or.inr ⟨m, Or.inl rfl, hs, hv, rfl⟩
          · exact Or.inl hacc
          · exact Or.inr ⟨w, Or.inr hw, hws, hwv, rfl⟩
        · rintro (hacc | ⟨w, hw, hws, hwv, rfl⟩)
          · exact Or.inl (Or.inr hacc)
          · rcases hw with rfl | hw2
            · exact Or.inl (Or.inl rfl)
            · exact Or.inr ⟨w, hw2, hws, hwv, rfl⟩

/-- Full membership characterization of `mounts_to_check`: an entry comes from
a volume of a connected drive, from a driveless volume, or from a non-shadowed
volumeless mount — the shadow test guards only the third source. -/
theorem mem_mounts_to_check (vm : VolumeMonitor) (x : Option Mount) :
    x ∈ mounts_to_check vm ↔
      (∃ d ∈ vm.drives, ∃ v ∈ d.volumes, x = v.mount)
      ∨ (∃ v ∈ vm.volumes, v.hasDrive = false ∧ x = v.mount)
      ∨ (∃ m ∈ vm.mounts, m.shadowed = false ∧ m.hasVolume = false ∧ x = some m) := by
  unfold mounts_to_check
  rw [mem_mount_fold, mem_driveless_fold, mem_drive_fold]
  simp only [List.not_mem_nil, false_or]
  exact or_assoc

/-! ## Metas-cache lemmas -/

theorem cacheInsert_cons (p : String × Meta) (ps : MetasCache) (k : String) (m : Meta) :
    cacheInsert (p :: ps) k m =
      if p.1 = k then cacheInsert ps k m else p :: cacheInsert ps k m := by
  unfold cacheInsert
  by_cases h : p.1 = k <;> simp [List.filter_cons, h]

theorem cacheLookup_cons (p : String × Meta) (ps : MetasCache) (u : String) :
    cacheLookup (p :: ps) u = if p.1 = u then some p.2 else cacheLookup ps u := by
  unfold cacheLookup
  by_cases h : p.1 = u <;> simp [List.find?_cons, h]

theorem cacheLookup_cacheInsert (c : MetasCache) (k : String) (m : Meta) (u : String) :
    cacheLookup (cacheInsert c k m) u = if u = k then some m else cacheLookup c u := by
  induction c with
  | nil =>
    by_cases h : u = k
    · subst h; simp [cacheInsert, cacheLookup, List.find?]
    · have hk : (k == u) = false := beq_eq_false_iff_ne.mpr fun h2 => h h2.symm
      simp [cacheInsert, cacheLookup, List.find?, hk, h]
  | cons p ps ih =>
    rw [cacheInsert_cons]
    by_cases hk : p.1 = k
    · rw [if_pos hk, ih, cacheLookup_cons]
      by_cases hu : u = k
      · rw [if_pos hu, if_pos hu]
      · rw [if_neg hu, if_neg hu, if_neg (by rw [hk]; exact fun h2 => hu h2.symm)]
    · rw [if_neg hk, cacheLookup_cons]
      by_cases hp : p.1 = u
      · have hne : ¬(u = k) := by rw [← hp]; exact hk
        rw [if_pos hp, if_neg hne, cacheLookup_cons, if_pos hp]
      · rw [if_neg hp, ih, cacheLookup_cons, if_neg hp]

theorem cacheLookup_ready_cb (bookmarks : List Bookmark) (fs : FileSource)
    (c : MetasCache) (missing : List String) (u : String) :
    cacheLookup (result_list_attributes_ready_cb bookmarks fs c missing) u =
      if u ∈ missing then some (buildMeta bookmarks u (fs u)) else cacheLookup c u := by
  induction missing generalizing c with
  | nil => simp [result_list_attributes_ready_cb]
  | cons v vs ih =>
    have step : result_list_attributes_ready_cb bookmarks fs c (v :: vs) =
        result_list_attributes_ready_cb bookmarks fs
          (cacheInsert c v (buildMeta bookmarks v (fs v))) vs := rfl
    rw [step, ih, cacheLookup_cacheInsert]
    by_cases hv : u ∈ vs
    · rw [if_pos hv, if_pos (List.mem_cons_of_mem _ hv)]
    · rw [if_neg hv]
      by_cases hu : u = v
      · subst hu
        rw [if_pos rfl, if_pos (List.mem_cons_self _ _)]
      · rw [if_neg hu, if_neg (by
          intro h2
          rcases List.mem_cons.mp h2 with h3 | h3
          · exact hu h3
          · exact hv h3)]

/-- The reply of `handle_get_result_metas` is always assembled from its final
cache, one lookup per requested URI. -/
theorem handle_get_result_metas_reply (bookmarks : List Bookmark) (fs : FileSource)
    (c : MetasCache) (uris : List String) :
    (handle_get_result_metas bookmarks fs c uris).reply =
      result_metas_return_from_cache (handle_get_result_metas bookmarks fs c uris).cache uris := by
  unfold handle_get_result_metas
  by_cases h : (uris.filter fun u => (cacheLookup c u).isNone).isEmpty <;> simp [h]

/-- The final cache of `handle_get_result_metas`: unchanged on a full cache
hit, else extended by the resolved records of the missing URIs. -/
theorem handle_get_result_metas_cache (bookmarks : List Bookmark) (fs : FileSource)
    (c : MetasCache) (uris : List String) :
    (handle_get_result_metas bookmarks fs c uris).cache =
      if (uris.filter fun u => (cacheLookup c u).isNone).isEmpty then c
      else result_list_attributes_ready_cb bookmarks fs c
        (uris.filter fun u => (cacheLookup c u).isNone) := by
  unfold handle_get_result_metas
  by_cases h : (uris.filter fun u => (cacheLookup c u).isNone).isEmpty <;> simp [h]

/-- The source-invocation flag of `handle_get_result_metas` is set exactly when
some requested URI misses the cache. -/
theorem handle_get_result_metas_invoked (bookmarks : List Bookmark) (fs : FileSource)
    (c : MetasCache) (uris : List String) :
    (handle_get_result_metas bookmarks fs c uris).sourceInvoked =
      !(uris.filter fun u => (cacheLookup c u).isNone).isEmpty := by
  unfold handle_get_result_metas
  by_cases h : (uris.filter fun u => (cacheLookup c u).isNone).isEmpty <;> simp [h]

/-- After a `GetResultMetas` call, every requested URI has a cache entry. -/
theorem handle_get_result_metas_covers (bookmarks : List Bookmark) (fs : FileSource)
    (c : MetasCache) (uris : List String) (u : String) (hu : u ∈ uris) :
    (cacheLookup (handle_get_result_metas bookmarks fs c uris).cache u).isSome := by
  rw [handle_get_result_metas_cache]
  by_cases h : (uris.filter fun u => (cacheLookup c u).isNone).isEmpty
  · rw [if_pos h]
    have h2 : ¬((cacheLookup c u).isNone = true) := by
      intro hnone
      have hmem : u ∈ uris.filter fun w => (cacheLookup c w).isNone :=
        List.mem_filter.mpr ⟨hu, hnone⟩
      rw [List.isEmpty_iff] at h
      rw [h] at hmem
      cases hmem
    simpa [Option.isNone_iff_eq_none, ← Option.ne_none_iff_isSome] using h2
  · rw [if_neg h, cacheLookup_ready_cb]
    by_cases hm : u ∈ uris.filter fun w => (cacheLookup c w).isNone
    · rw [if_pos hm]; rfl
    · rw [if_neg hm]
      have h2 : ¬((cacheLookup c u).isNone = true) := by
        intro hnone
        exact hm (List.mem_filter.mpr ⟨hu, hnone⟩)
      simpa [Option.isNone_iff_eq_none, ← Option.ne_none_iff_isSome] using h2

/-- Cache entries are never evicted by a `GetResultMetas` call. -/
theorem handle_get_result_metas_mono (bookmarks : List Bookmark) (fs : FileSource)
    (c : MetasCache) (uris : List String) (u : String)
    (h : (cacheLookup c u).isSome) :
    (cacheLookup (handle_get_result_metas bookmarks fs c uris).cache u).isSome := by
  rw [handle_get_result_metas_cache]
  by_cases he : (uris.filter fun w => (cacheLookup c w).isNone).isEmpty
  · rw [if_pos he]; exact h
  · rw [if_neg he, cacheLookup_ready_cb]
    by_cases hm : u ∈ uris.filter fun w => (cacheLookup c w).isNone
    · rw [if_pos hm]; rfl
    · rw [if_neg hm]; exact h

/-! ## Small facts about cancellation and the scan -/

theorem cancel_current_search_clears (app : App) :
    (cancel_current_search app).1.current_search = none := by
  cases h : app.current_search <;> simp [cancel_current_search, h]

theorem cancel_current_search_bookmarks (app : App) :
    (cancel_current_search app).1.bookmarks = app.bookmarks := by
  cases h : app.current_search <;> simp [cancel_current_search, h]

theorem cancel_current_search_volumes (app : App) :
    (cancel_current_search app).1.volumes = app.volumes := by
  cases h : app.current_search <;> simp [cancel_current_search, h]

theorem search_add_volumes_and_bookmarks_eq (nfd : NFD) (score : Score)
    (bookmarks : List Bookmark) (vm : VolumeMonitor) (qt : String) (hits0 : HitTable) :
    search_add_volumes_and_bookmarks nfd score bookmarks vm qt hits0 =
      match matchMounts nfd (termsOf nfd qt) (mounts_to_check vm) with
      | none => none
      | some ms => some (addMountHits score ms
          (addBookmarkHits nfd score (termsOf nfd qt) bookmarks hits0)) := rfl

theorem scan_some (nfd : NFD) (score : Score) (bookmarks : List Bookmark)
    (vm : VolumeMonitor) (qt : String) (hits0 hits : HitTable)
    (h : search_add_volumes_and_bookmarks nfd score bookmarks vm qt hits0 = some hits) :
    ∃ ms, matchMounts nfd (termsOf nfd qt) (mounts_to_check vm) = some ms ∧
      hits = addMountHits score ms (addBookmarkHits nfd score (termsOf nfd qt) bookmarks hits0) := by
  rw [search_add_volumes_and_bookmarks_eq] at h
  cases hm : matchMounts nfd (termsOf nfd qt) (mounts_to_check vm) with
  | none =>
    rw [hm] at h
    exact absurd h (by simp)
  | some ms =>
    rw [hm] at h
    exact ⟨ms, rfl, (Option.some.inj h).symm⟩

/-! ## Concrete instances used by the claim witnesses -/

def emptyVM : VolumeMonitor := { drives := [], volumes := [], mounts := [] }

def app0 : App :=
  { current_search := none, metas_cache := [], bookmarks := [], volumes := emptyVM }

def psDemo : PendingSearch :=
  { queryText := "q", hits := [{ uri := "file:///h", relevance := 3 }], invocation := 7 }

def appWithSession : App :=
  { current_search := some psDemo, metas_cache := [], bookmarks := [], volumes := emptyVM }

/-! ## Claim C9 -/

/-- C9: `GetSubsearchResultSet (previousResults, terms)` behaves identically to
`GetInitialResultSet (terms)`: the previous-result set is ignored and a fresh
session is started from the new terms alone. -/
theorem claim_c9 (nfd : NFD) (score : Score) (app : App) (inv : Nat)
    (previous_results : List String) (terms : List String) :
    handle_get_subsearch_result_set nfd score app inv previous_results terms =
      handle_get_initial_result_set nfd score app inv terms := rfl

/-! ## Claim C4 -/

/-- C4: on an engine error and on cancellation/supersession, the live
session has its pending invocation answered with the empty identifier list — regardless of
the hits accumulated so far — and the session is finalized; no fault reply is
produced, only a normal empty-list reply. -/
theorem claim_c4 (app : App) (ps : PendingSearch)
    (h : app.current_search = some ps) :
    search_error_cb app =
        some ({ app with current_search := none }, [Event.reply ps.invocation []])
    ∧ cancel_current_search app =
        ({ app with current_search := none },
         [Event.engineStop ps.invocation, Event.reply ps.invocation []]) := by
  constructor <;> simp [search_error_cb, cancel_current_search, h]

/-- Witness for C4: a live session with a non-empty hit set is finalized with
an empty reply on both the error path and the cancellation path. -/
theorem claim_c4_witness :
    appWithSession.current_search = some psDemo ∧
    (search_error_cb appWithSession =
        some ({ appWithSession with current_search := none },
              [Event.reply psDemo.invocation []])
     ∧ cancel_current_search appWithSession =
        ({ appWithSession with current_search := none },
         [Event.engineStop psDemo.invocation, Event.reply psDemo.invocation []])) :=
  ⟨rfl, claim_c4 appWithSession psDemo rfl⟩

/-! ## Claim C3 -/

/-- C3: a request whose term list is a single one-character term is answered
synchronously with the empty identifier list; no session is created and the
engine is never started. -/
theorem claim_c3 (nfd : NFD) (score : Score) (app : App) (inv : Nat) (t : String)
    (h : t.length = 1) :
    (execute_search nfd score app inv [t]).1 =
        (cancel_current_search app).2 ++ [Event.reply inv []]
    ∧ (execute_search nfd score app inv [t]).2 = some (cancel_current_search app).1
    ∧ ((cancel_current_search app).1).current_search = none
    ∧ ∀ j, Event.engineStart j ∉ (execute_search nfd score app inv [t]).1 := by
  have he : execute_search nfd score app inv [t] =
      ((cancel_current_search app).2 ++ [Event.reply inv []],
       some (cancel_current_search app).1) := by
    simp [execute_search, h]
  refine ⟨by rw [he], by rw [he], cancel_current_search_clears app, ?_⟩
  intro j
  rw [he]
  cases hc : app.current_search <;> simp [cancel_current_search, hc]

/-- Witness for C3: the one-character query `["a"]` is rejected synchronously. -/
theorem claim_c3_witness :
    ("a" : String).length = 1 ∧
    ((execute_search id (fun _ => 0) app0 5 ["a"]).1 =
        (cancel_current_search app0).2 ++ [Event.reply 5 []]
     ∧ (execute_search id (fun _ => 0) app0 5 ["a"]).2 =
        some (cancel_current_search app0).1
     ∧ ((cancel_current_search app0).1).current_search = none
     ∧ ∀ j, Event.engineStart j ∉ (execute_search id (fun _ => 0) app0 5 ["a"]).1) :=
  ⟨rfl, claim_c3 id (fun _ => 0) app0 5 "a" rfl⟩

/-! ## Claim C2 -/

/-- C2: after any sequence of hits-added/hits-subtracted notifications, the
finished reply lists exactly the identifiers of the final hit table (as a
permutation of its key set), in descending-relevance order; keys remain unique,
a later hit with an existing identifier replaces the entry (last write wins),
and a subtracted identifier is removed. -/
theorem claim_c2 (score : Score) (t0 : HitTable) (seq : List Notification)
    (h0 : UniqueKeys t0) :
    (search_finished_cb (processNotifications score t0 seq)).Perm
        ((processNotifications score t0 seq).map SearchHit.uri)
    ∧ List.Sorted hitGE (sortedHits (processNotifications score t0 seq))
    ∧ UniqueKeys (processNotifications score t0 seq)
    ∧ (∀ t u, lookupHit (search_hits_added_cb score t [u]) u =
        some { uri := u, relevance := score u })
    ∧ (∀ t u, u ∉ (search_hits_subtracted_cb t [u]).map SearchHit.uri) := by
  refine ⟨search_finished_cb_perm _, sortedHits_sorted _,
    uniqueKeys_processNotifications score t0 seq h0, ?_, ?_⟩
  · intro t u
    exact lookupHit_hashReplace_self t { uri := u, relevance := score u }
  · intro t u hmem
    exact ((mem_keys_hashRemove t u u).mp hmem).2 rfl

/-- Witness for C2: a concrete notification run (two hits added, one
subtracted) on the empty table. -/
theorem claim_c2_witness :
    UniqueKeys ([] : HitTable) ∧
    ((search_finished_cb (processNotifications (fun u => (u.length : Int)) []
        [Notification.added ["file:///a", "file:///b"],
         Notification.subtracted ["file:///a"]])).Perm
        ((processNotifications (fun u => (u.length : Int)) []
        [Notification.added ["file:///a", "file:///b"],
         Notification.subtracted ["file:///a"]]).map SearchHit.uri)
     ∧ List.Sorted hitGE (sortedHits (processNotifications (fun u => (u.length : Int)) []
        [Notification.added ["file:///a", "file:///b"],
         Notification.subtracted ["file:///a"]]))
     ∧ UniqueKeys (processNotifications (fun u => (u.length : Int)) []
        [Notification.added ["file:///a", "file:///b"],
         Notification.subtracted ["file:///a"]])
     ∧ (∀ t u, lookupHit (search_hits_added_cb (fun u => (u.length : Int)) t [u]) u =
        some { uri := u, relevance := (u.length : Int) })
     ∧ (∀ t u, u ∉ (search_hits_subtracted_cb t [u]).map SearchHit.uri)) :=
  ⟨List.nodup_nil, claim_c2 (fun u => (u.length : Int)) []
      [Notification.added ["file:///a", "file:///b"],
       Notification.subtracted ["file:///a"]] List.nodup_nil⟩

/-! ## Claim C1 -/

theorem execute_search_go_spec (nfd : NFD) (score : Score) (app1 : App)
    (ev1 : List Event) (inv : Nat) (terms : List String) :
    ∃ tail, (execute_search_go nfd score app1 ev1 inv terms).1 = ev1 ++ tail
      ∧ (tail = [] ∨ tail = [Event.engineStart inv])
      ∧ ∀ app2, (execute_search_go nfd score app1 ev1 inv terms).2 = some app2 →
          ∀ q, app2.current_search = some q → q.invocation = inv := by
  cases hscan : search_add_volumes_and_bookmarks nfd score app1.bookmarks app1.volumes
      (String.intercalate " " terms) [] with
  | none =>
    refine ⟨[], ?_, Or.inl rfl, ?_⟩
    · simp only [execute_search_go, hscan]
      simp
    · intro app2 h2
      simp only [execute_search_go, hscan] at h2
      cases h2
  | some hits =>
    refine ⟨[Event.engineStart inv], ?_, Or.inr rfl, ?_⟩
    · simp only [execute_search_go, hscan]
    · intro app2 h2 q hq
      simp only [execute_search_go, hscan, Option.some.injEq] at h2
      subst h2
      have hq2 : some (⟨String.intercalate " " terms, hits, inv⟩ : PendingSearch) =
          some q := hq
      cases Option.some.inj hq2
      rfl

theorem execute_search_trace (nfd : NFD) (score : Score) (app : App)
    (inv : Nat) (terms : List String) :
    ∃ tail, (execute_search nfd score app inv terms).1 = (cancel_current_search app).2 ++ tail
      ∧ (tail = [] ∨ tail = [Event.reply inv []] ∨ tail = [Event.engineStart inv])
      ∧ ∀ app2, (execute_search nfd score app inv terms).2 = some app2 →
          ∀ q, app2.current_search = some q → q.invocation = inv := by
  cases terms with
  | nil =>
    rcases execute_search_go_spec nfd score (cancel_current_search app).1
        (cancel_current_search app).2 inv [] with ⟨tail, h1, h2, h3⟩
    exact ⟨tail, h1, by tauto, h3⟩
  | cons t ts =>
    cases ts with
    | nil =>
      by_cases hl : t.length = 1
      · refine ⟨[Event.reply inv []], ?_, by tauto, ?_⟩
        · simp [execute_search, hl]
        · intro app2 h2 q hq
          have : (execute_search nfd score app inv [t]).2 =
              some (cancel_current_search app).1 := by
            simp [execute_search, hl]
          rw [this] at h2
          cases Option.some.inj h2
          rw [cancel_current_search_clears app] at hq
          cases hq
      · rcases execute_search_go_spec nfd score (cancel_current_search app).1
            (cancel_current_search app).2 inv [t] with ⟨tail, h1, h2, h3⟩
        have heq : execute_search nfd score app inv [t] =
            execute_search_go nfd score (cancel_current_search app).1
              (cancel_current_search app).2 inv [t] := by
          simp [execute_search, hl]
        rw [heq]
        exact ⟨tail, h1, by tauto, h3⟩
    | cons t2 ts2 =>
      rcases execute_search_go_spec nfd score (cancel_current_search app).1
          (cancel_current_search app).2 inv (t :: t2 :: ts2) with ⟨tail, h1, h2, h3⟩
      exact ⟨tail, h1, by tauto, h3⟩

/-- C1: a search request arriving while a session is live first stops that
engine of that session and answers its pending invocation with the empty list; only
after both events may a new engine start, and any session live afterwards is
the one of the new request, so two engines never run concurrently. -/
theorem claim_c1 (nfd : NFD) (score : Score) (app : App) (ps : PendingSearch)
    (inv : Nat) (terms : List String) (h : app.current_search = some ps) :
    ∃ rest,
      (execute_search nfd score app inv terms).1 =
        Event.engineStop ps.invocation :: Event.reply ps.invocation [] :: rest
      ∧ (∀ j, Event.engineStart j ∈ (execute_search nfd score app inv terms).1 →
          Event.engineStart j ∈ rest)
      ∧ (∀ app2, (execute_search nfd score app inv terms).2 = some app2 →
          ∀ q, app2.current_search = some q → q.invocation = inv) := by
  rcases execute_search_trace nfd score app inv terms with ⟨tail, h1, h2, h3⟩
  have hc : (cancel_current_search app).2 =
      [Event.engineStop ps.invocation, Event.reply ps.invocation []] := by
    simp [cancel_current_search, h]
  refine ⟨tail, by rw [h1, hc]; rfl, ?_, h3⟩
  intro j hj
  rw [h1, hc] at hj
  simp only [List.cons_append, List.nil_append, List.mem_cons] at hj
  rcases hj with h4 | h4 | h4
  · simp at h4
  · simp at h4
  · exact h4

/-- Witness for C1: superseding a live session with a fresh two-term search. -/
theorem claim_c1_witness :
    appWithSession.current_search = some psDemo ∧
    (∃ rest,
      (execute_search id (fun _ => 0) appWithSession 9 ["foo", "bar"]).1 =
        Event.engineStop psDemo.invocation :: Event.reply psDemo.invocation [] :: rest
      ∧ (∀ j, Event.engineStart j ∈
            (execute_search id (fun _ => 0) appWithSession 9 ["foo", "bar"]).1 →
          Event.engineStart j ∈ rest)
      ∧ (∀ app2, (execute_search id (fun _ => 0) appWithSession 9 ["foo", "bar"]).2 =
            some app2 →
          ∀ q, app2.current_search = some q → q.invocation = 9)) :=
  ⟨rfl, claim_c1 id (fun _ => 0) appWithSession psDemo 9 ["foo", "bar"] rfl⟩

/-! ## Claim C5 -/

theorem execute_search_go_session (nfd : NFD) (score : Score) (app1 : App)
    (ev1 : List Event) (inv : Nat) (terms : List String) (app2 : App) (ps : PendingSearch)
    (hex : (execute_search_go nfd score app1 ev1 inv terms).2 = some app2)
    (hcur : app2.current_search = some ps) :
    ∃ hits, search_add_volumes_and_bookmarks nfd score app1.bookmarks app1.volumes
        (String.intercalate " " terms) [] = some hits ∧ ps.hits = hits := by
  cases hscan : search_add_volumes_and_bookmarks nfd score app1.bookmarks app1.volumes
      (String.intercalate " " terms) [] with
  | none =>
    simp only [execute_search_go, hscan] at hex
    cases hex
  | some hits =>
    refine ⟨hits, rfl, ?_⟩
    simp only [execute_search_go, hscan, Option.some.injEq] at hex
    subst hex
    have hq2 : some (⟨String.intercalate " " terms, hits, inv⟩ : PendingSearch) =
        some ps := hcur
    cases Option.some.inj hq2
    rfl

theorem execute_search_session (nfd : NFD) (score : Score) (app : App)
    (inv : Nat) (terms : List String) (app2 : App) (ps : PendingSearch)
    (hex : (execute_search nfd score app inv terms).2 = some app2)
    (hcur : app2.current_search = some ps) :
    ∃ hits, search_add_volumes_and_bookmarks nfd score app.bookmarks app.volumes
        (String.intercalate " " terms) [] = some hits ∧ ps.hits = hits := by
  rw [← cancel_current_search_bookmarks app, ← cancel_current_search_volumes app]
  cases terms with
  | nil =>
    exact execute_search_go_session nfd score (cancel_current_search app).1
      (cancel_current_search app).2 inv [] app2 ps hex hcur
  | cons t ts =>
    cases ts with
    | nil =>
      by_cases hl : t.length = 1
      · exfalso
        have h2 : (execute_search nfd score app inv [t]).2 =
            some (cancel_current_search app).1 := by
          simp [execute_search, hl]
        rw [h2] at hex
        cases Option.some.inj hex
        rw [cancel_current_search_clears app] at hcur
        cases hcur
      · have heq : execute_search nfd score app inv [t] =
            execute_search_go nfd score (cancel_current_search app).1
              (cancel_current_search app).2 inv [t] := by
          simp [execute_search, hl]
        rw [heq] at hex
        exact execute_search_go_session nfd score (cancel_current_search app).1
          (cancel_current_search app).2 inv [t] app2 ps hex hcur
    | cons t2 ts2 =>
      exact execute_search_go_session nfd score (cancel_current_search app).1
        (cancel_current_search app).2 inv (t :: t2 :: ts2) app2 ps hex hcur

/-- C5: a candidate name matches the auxiliary scan iff every prepared query
term occurs as a substring of the prepared name (conjunctive, unordered, plain
substring); consequently, a bookmark all of whose terms match contributes its
URI to the hits of the session, so it appears in the finished reply even when the
engine emits zero hits. -/
theorem claim_c5 (nfd : NFD) (score : Score) (terms : List String) (name : String)
    (app : App) (b : Bookmark) (inv : Nat) (qterms : List String)
    (app2 : App) (ps : PendingSearch)
    (hb : b ∈ app.bookmarks)
    (hm : matchesName nfd (termsOf nfd (String.intercalate " " qterms)) b.name = true)
    (hex : (execute_search nfd score app inv qterms).2 = some app2)
    (hcur : app2.current_search = some ps) :
    (matchesName nfd terms name = true ↔
        ∀ t ∈ terms, SubOf t.data (prepare_string_for_compare nfd name).data)
    ∧ b.uri ∈ search_finished_cb ps.hits := by
  constructor
  · unfold matchesName
    rw [List.all_eq_true]
    constructor
    · intro h t ht
      exact (containsSubL_iff _ _).mp (h t ht)
    · intro h t ht
      exact (containsSubL_iff _ _).mpr (h t ht)
  · rcases execute_search_session nfd score app inv qterms app2 ps hex hcur with
      ⟨hits, hscan, hps⟩
    rcases scan_some nfd score app.bookmarks app.volumes _ [] hits hscan with ⟨ms, _, hh⟩
    rw [hps, hh, mem_search_finished_cb]
    apply mem_keys_addMountHits
    exact matched_bookmark_mem_keys nfd score _ app.bookmarks [] b hb hm

/-- Scenario inputs from the specification, for the C5 witness. -/
def reportBookmark : Bookmark :=
  { name := "2023 Report Draft", uri := "file:///a", icon := "folder" }

def appScenario : App :=
  { current_search := none, metas_cache := [], bookmarks := [reportBookmark],
    volumes := emptyVM }

def psScenario : PendingSearch :=
  { queryText := "report 2023", hits := [{ uri := "file:///a", relevance := 0 }],
    invocation := 1 }

def appScenario2 : App := { appScenario with current_search := some psScenario }

/-- Witness for C5: query `["report", "2023"]` against the bookmark
`"2023 Report Draft"` with zero engine hits yields `["file:///a"]`. -/
theorem claim_c5_witness :
    reportBookmark ∈ appScenario.bookmarks
    ∧ matchesName id (termsOf id (String.intercalate " " ["report", "2023"]))
        reportBookmark.name = true
    ∧ (execute_search id (fun _ => 0) appScenario 1 ["report", "2023"]).2 =
        some appScenario2
    ∧ appScenario2.current_search = some psScenario
    ∧ ((matchesName id ["doc"] "My Documents" = true ↔
          ∀ t ∈ ["doc"], SubOf t.data (prepare_string_for_compare id "My Documents").data)
       ∧ reportBookmark.uri ∈ search_finished_cb psScenario.hits) :=
  ⟨List.mem_cons_self _ _, by decide, by decide, rfl,
   claim_c5 id (fun _ => 0) ["doc"] "My Documents" appScenario reportBookmark 1
     ["report", "2023"] appScenario2 psScenario (List.mem_cons_self _ _)
     (by decide) (by decide) rfl⟩

/-! ## Claim C6 -/

/-- A shadowed mount owned by a volume on a connected drive. -/
def shadowedDataMount : Mount :=
  { name := "data", uri := "file:///d", shadowed := true, hasVolume := true }

def shadowedVolume : Volume := { mount := some shadowedDataMount, hasDrive := true }

def shadowVM : VolumeMonitor :=
  { drives := [{ volumes := [shadowedVolume] }],
    volumes := [shadowedVolume],
    mounts := [shadowedDataMount] }

/-- Counterexample to C6 as stated: a shadowed mount reached through a
volume of a connected drive is enumerated and matched by the auxiliary scan, and
its URI is inserted into the hit set. -/
theorem claim_c6_counterexample :
    shadowedDataMount.shadowed = true
    ∧ matchMounts id ["data"] (mounts_to_check shadowVM) = some [shadowedDataMount]
    ∧ search_add_volumes_and_bookmarks id (fun _ => 0) [] shadowVM "data" [] =
        some [{ uri := "file:///d", relevance := 0 }] := by
  refine ⟨rfl, by decide, by decide⟩

/-- C6 (amended): shadow mounts are excluded only from the third enumeration
source (mounts with no owning volume); mounts reached through connected
drive volumes or through driveless volumes are enumerated with no shadow
check, so only a shadowed mount with no owning volume is never matched. -/
theorem claim_c6 (vm : VolumeMonitor) (m : Mount) :
    some m ∈ mounts_to_check vm ↔
      (∃ d ∈ vm.drives, ∃ v ∈ d.volumes, v.mount = some m)
      ∨ (∃ v ∈ vm.volumes, v.hasDrive = false ∧ v.mount = some m)
      ∨ (m ∈ vm.mounts ∧ m.shadowed = false ∧ m.hasVolume = false) := by
  rw [mem_mounts_to_check]
  constructor
  · rintro (⟨d, hd, v, hv, hm⟩ | ⟨v, hv, hdrv, hm⟩ | ⟨m2, hm2, hs, hv, heq⟩)
    · exact Or.inl ⟨d, hd, v, hv, hm.symm⟩
    · exact Or.inr (Or.inl ⟨v, hv, hdrv, hm.symm⟩)
    · cases Option.some.inj heq
      exact Or.inr (Or.inr ⟨hm2, hs, hv⟩)
  · rintro (⟨d, hd, v, hv, hm⟩ | ⟨v, hv, hdrv, hm⟩ | ⟨hm2, hs, hv⟩)
    · exact Or.inl ⟨d, hd, v, hv, hm.symm⟩
    · exact Or.inr (Or.inl ⟨v, hv, hdrv, hm.symm⟩)
    · exact Or.inr (Or.inr ⟨m, hm2, hs, hv, rfl⟩)

/-! ## Claim C7 -/

/-- C7: calling `GetResultMetas` a second time with the same identifiers does
not invoke the metadata source, returns the identical reply, leaves the cache
unchanged, and the first call never evicted an existing cache entry. -/
theorem claim_c7 (bookmarks : List Bookmark) (fs : FileSource) (c0 : MetasCache)
    (uris : List String) :
    (handle_get_result_metas bookmarks fs
        (handle_get_result_metas bookmarks fs c0 uris).cache uris).sourceInvoked = false
    ∧ (handle_get_result_metas bookmarks fs
        (handle_get_result_metas bookmarks fs c0 uris).cache uris).reply =
        (handle_get_result_metas bookmarks fs c0 uris).reply
    ∧ (handle_get_result_metas bookmarks fs
        (handle_get_result_metas bookmarks fs c0 uris).cache uris).cache =
        (handle_get_result_metas bookmarks fs c0 uris).cache
    ∧ ∀ u, (cacheLookup c0 u).isSome →
        (cacheLookup (handle_get_result_metas bookmarks fs c0 uris).cache u).isSome := by
  have hcov := handle_get_result_metas_covers bookmarks fs c0 uris
  have hempty : ((uris.filter fun u =>
      (cacheLookup (handle_get_result_metas bookmarks fs c0 uris).cache u).isNone).isEmpty)
      = true := by
    rw [List.isEmpty_iff, List.filter_eq_nil_iff]
    intro u hu
    have h2 := hcov u hu
    simp only [Option.isNone_iff_eq_none]
    intro h3
    rw [h3] at h2
    cases h2
  refine ⟨?_, ?_, ?_, ?_⟩
  · rw [handle_get_result_metas_invoked, hempty]
    rfl
  · rw [handle_get_result_metas_reply, handle_get_result_metas_cache, if_pos hempty,
      handle_get_result_metas_reply]
  · rw [handle_get_result_metas_cache, if_pos hempty]
  · intro u hu
    exact handle_get_result_metas_mono bookmarks fs c0 uris u hu

/-- A sample metadata source and cache for the metas witnesses. -/
def pixDemo : Pixbuf :=
  { width := 1, height := 1, rowstride := 4, hasAlpha := true,
    bitsPerSample := 8, nChannels := 4, bytes := [0, 0, 0, 0] }

def fsDemo : FileSource := fun _ =>
  { displayName := "x", thumbnailPath := none, gicon := none, pixbuf := pixDemo }

def metaDemo : Meta := { id := "file:///x", name := "x", icon := Icon.gicon "g" }

def cacheDemo : MetasCache := [("file:///x", metaDemo)]

/-- Witness for C7: a cached identifier survives a `GetResultMetas` call for a
different identifier. -/
theorem claim_c7_witness :
    (cacheLookup cacheDemo "file:///x").isSome = true ∧
    (cacheLookup (handle_get_result_metas [] fsDemo cacheDemo ["file:///y"]).cache
        "file:///x").isSome = true :=
  ⟨by decide,
   (claim_c7 [] fsDemo cacheDemo ["file:///y"]).2.2.2 "file:///x" (by decide)⟩

/-! ## Claim C8 -/

/-- A cache is well formed when the id field of every stored record equals its key;
this holds for every cache built by the provider, which only inserts
`buildMeta` records keyed by their URI. -/
def CacheWF (c : MetasCache) : Prop :=
  ∀ u m, cacheLookup c u = some m → m.id = u

theorem cacheWF_handle (bookmarks : List Bookmark) (fs : FileSource)
    (c0 : MetasCache) (uris : List String) (hwf : CacheWF c0) :
    CacheWF (handle_get_result_metas bookmarks fs c0 uris).cache := by
  rw [handle_get_result_metas_cache]
  by_cases he : (uris.filter fun u => (cacheLookup c0 u).isNone).isEmpty
  · rw [if_pos he]; exact hwf
  · rw [if_neg he]
    intro u m hl
    rw [cacheLookup_ready_cb] at hl
    by_cases hm : u ∈ uris.filter fun w => (cacheLookup c0 w).isNone
    · rw [if_pos hm] at hl
      cases Option.some.inj hl
      rfl
    · rw [if_neg hm] at hl
      exact hwf u m hl

theorem zip_self_map (l : List String) (f : String → Option Meta)
    (p : String × Option Meta) (hp : p ∈ l.zip (l.map f)) :
    p.1 ∈ l ∧ p.2 = f p.1 := by
  induction l with
  | nil => cases hp
  | cons a as ih =>
    rcases List.mem_cons.mp hp with h | h
    · subst h
      exact ⟨List.mem_cons_self _ _, rfl⟩
    · rcases ih h with ⟨h1, h2⟩
      exact ⟨List.mem_cons_of_mem _ h1, h2⟩

/-- C8: `GetResultMetas` replies with exactly one record per requested
identifier, in request order, each record carrying the requested identifier;
with zero misses the source is not invoked and the reply is synchronous. -/
theorem claim_c8 (bookmarks : List Bookmark) (fs : FileSource) (c0 : MetasCache)
    (uris : List String) (hwf : CacheWF c0) :
    (handle_get_result_metas bookmarks fs c0 uris).reply.length = uris.length
    ∧ (∀ p ∈ uris.zip (handle_get_result_metas bookmarks fs c0 uris).reply,
        ∃ m : Meta, p.2 = some m ∧ m.id = p.1)
    ∧ ((∀ u ∈ uris, (cacheLookup c0 u).isSome) →
        (handle_get_result_metas bookmarks fs c0 uris).sourceInvoked = false) := by
  refine ⟨?_, ?_, ?_⟩
  · rw [handle_get_result_metas_reply]
    exact List.length_map _ _
  · intro p hp
    rw [handle_get_result_metas_reply] at hp
    rcases zip_self_map uris _ p hp with ⟨h1, h2⟩
    have hcov := handle_get_result_metas_covers bookmarks fs c0 uris p.1 h1
    cases hl : cacheLookup (handle_get_result_metas bookmarks fs c0 uris).cache p.1 with
    | none => rw [hl] at hcov; cases hcov
    | some m =>
      refine ⟨m, ?_, cacheWF_handle bookmarks fs c0 uris hwf p.1 m hl⟩
      rw [h2]
      exact hl
  · intro hall
    rw [handle_get_result_metas_invoked]
    have : (uris.filter fun u => (cacheLookup c0 u).isNone) = [] := by
      rw [List.filter_eq_nil_iff]
      intro u hu
      have h2 := hall u hu
      simp only [Option.isNone_iff_eq_none]
      intro h3
      rw [h3] at h2
      cases h2
    rw [this]
    rfl

/-- Witness for C8: a two-identifier request against the empty cache. -/
theorem claim_c8_witness :
    CacheWF [] ∧
    ((handle_get_result_metas [] fsDemo [] ["file:///x", "file:///y"]).reply.length =
        (["file:///x", "file:///y"] : List String).length
     ∧ (∀ p ∈ (["file:///x", "file:///y"] : List String).zip
          (handle_get_result_metas [] fsDemo [] ["file:///x", "file:///y"]).reply,
        ∃ m : Meta, p.2 = some m ∧ m.id = p.1)
     ∧ ((∀ u ∈ (["file:///x", "file:///y"] : List String),
          (cacheLookup [] u).isSome) →
        (handle_get_result_metas [] fsDemo [] ["file:///x", "file:///y"]).sourceInvoked =
          false)) :=
  ⟨fun u m h => by simp [cacheLookup, List.find?] at h,
   claim_c8 [] fsDemo [] ["file:///x", "file:///y"]
     (fun u m h => by simp [cacheLookup, List.find?] at h)⟩

/-! ## Claim C10 -/

/-- C10: the scan adds the mount handle of each enumerated volume without checking
that the volume is mounted, so a mountless volume (reached through a connected
drive or as a driveless volume) puts a null handle in the list and the name
lookup on it fails; the scan completes exactly when every enumerated volume
has a mount. -/
theorem claim_c10 (nfd : NFD) (terms : List String) (vm : VolumeMonitor) :
    (∀ d ∈ vm.drives, ∀ v ∈ d.volumes, v.mount = none →
        matchMounts nfd terms (mounts_to_check vm) = none)
    ∧ (∀ v ∈ vm.volumes, v.hasDrive = false → v.mount = none →
        matchMounts nfd terms (mounts_to_check vm) = none)
    ∧ ((∀ d ∈ vm.drives, ∀ v ∈ d.volumes, (v.mount).isSome) →
       (∀ v ∈ vm.volumes, v.hasDrive = false → (v.mount).isSome) →
       ∃ ms, matchMounts nfd terms (mounts_to_check vm) = some ms) := by
  refine ⟨?_, ?_, ?_⟩
  · intro d hd v hv hm
    exact matchMounts_none_of_mem nfd terms _
      ((mem_mounts_to_check vm none).mpr (Or.inl ⟨d, hd, v, hv, hm.symm⟩))
  · intro v hv hdrv hm
    exact matchMounts_none_of_mem nfd terms _
      ((mem_mounts_to_check vm none).mpr (Or.inr (Or.inl ⟨v, hv, hdrv, hm.symm⟩)))
  · intro h1 h2
    apply matchMounts_isSome
    intro x hx hnone
    subst hnone
    rcases (mem_mounts_to_check vm none).mp hx with
      ⟨d, hd, v, hv, hm⟩ | ⟨v, hv, hdrv, hm⟩ | ⟨m, _, _, _, hm⟩
    · have h3 := h1 d hd v hv
      rw [← hm] at h3
      cases h3
    · have h3 := h2 v hv hdrv
      rw [← hm] at h3
      cases h3
    · cases hm

def unmountedVolume : Volume := { mount := none, hasDrive := false }

def vmNoMount : VolumeMonitor :=
  { drives := [], volumes := [unmountedVolume], mounts := [] }

/-- Witness for C10: one driveless volume with no mount makes the scan fail. -/
theorem claim_c10_witness :
    unmountedVolume ∈ vmNoMount.volumes
    ∧ unmountedVolume.hasDrive = false
    ∧ unmountedVolume.mount = none
    ∧ matchMounts id ["x"] (mounts_to_check vmNoMount) = none :=
  ⟨List.mem_cons_self _ _, rfl, rfl,
   (claim_c10 id ["x"] vmNoMount).2.1 unmountedVolume (List.mem_cons_self _ _) rfl rfl⟩

end NautilusShell
